import Mathlib

/-!
Shallow embedding of the pacmine resolution-and-transaction engine
(`src/pacmine/__main__.py`) and verification of the frozen claims.

Network and user-input collaborators (the Modrinth catalog, the artifact
byte fetcher, the confirmation prompt) are supplied as function parameters,
matching the external-interface boundary in the specification.  The
filesystem visible to the engine (the installed manifest file and the
install directory) is an explicit state record threaded through each
operation; `sys.exit` and uncaught Python exceptions are modelled by an
`Except` result carrying the state at the moment of halting.
-/

namespace Pacmine

/-- Character-list prefix test, used to model Python's substring operator. -/
def prefOf : List Char → List Char → Bool
  | [], _ => true
  | _ :: _, [] => false
  | a :: as, b :: bs => a == b && prefOf as bs

/-- Character-list substring test: does `needle` occur inside the list? -/
def subOf (needle : List Char) : List Char → Bool
  | [] => prefOf needle []
  | b :: bs => prefOf needle (b :: bs) || subOf needle bs

/-- Python's `needle in hay` substring test on strings. -/
def strContains (hay needle : String) : Bool :=
  subOf needle.data hay.data

/-- Python's `str.lower()`, modelled as character-wise ASCII lowering. -/
def strLower (s : String) : String :=
  ⟨s.data.map Char.toLower⟩

/-- `is_mod_loader` from the source: the four mod-loader cores. -/
def is_mod_loader (core : String) : Bool :=
  core == "fabric" || core == "forge" || core == "neoforge" || core == "quilt"

/-- `get_install_dir` from the source: `mods` for mod loaders, else `plugins`. -/
def get_install_dir (core : String) : String :=
  if is_mod_loader core then "mods" else "plugins"

/-- One entry of a release's `files` list. -/
structure FileRef where
  filename : String
  url : String
deriving DecidableEq, Repr

/-- One entry of a release's `dependencies` list.  `project_id` is `none`
when the JSON key is absent or null. -/
structure DepRef where
  project_id : Option String
  dependency_type : String
deriving DecidableEq, Repr

/-- A release/package record as returned by the registry and stored in the
installed manifest (the fields of the JSON object that the engine reads). -/
structure Pkg where
  project_id : String
  title : Option String
  name : Option String
  slug : Option String
  files : List FileRef
  dependencies : List DepRef
  game_versions : List String
deriving DecidableEq, Repr

/-- `package['files'][0]`.  The data-model invariant (spec section 3) makes
`files` a non-empty sequence, so the default is never reached for records
coming from the registry interface. -/
def file0 (p : Pkg) : FileRef := p.files.headD ⟨"", ""⟩

/-- The persisted environment: Minecraft version and core. -/
structure Env where
  version : String
  core : String
deriving DecidableEq, Repr

/-- Filesystem state visible to the engine.  `manifest` is the content of
`.pacmine/installed.json` (`none` when the file is absent); `disk` is the
set of artifact file paths present.  `addedTrace` and `confirmedPlan` are
observation fields: they record, respectively, the `project_id`s passed to
`add_package` in order, and the ids of the plan presented at the
confirmation prompt; the program logic never reads them. -/
structure FSState where
  manifest : Option (List (String × Pkg))
  disk : List String
  addedTrace : List String
  confirmedPlan : Option (List String)
deriving DecidableEq, Repr

/-- A halted run: `sys.exit(code)` or an uncaught exception, with the
filesystem state at that moment. -/
inductive Halt where
  | exit (code : Nat) (s : FSState)
  | exc (msg : String) (s : FSState)
deriving DecidableEq, Repr

/-- State at the end of a run, completed or halted. -/
def haltState : Halt → FSState
  | .exit _ s => s
  | .exc _ s => s

/-- State at the end of a run, completed or halted. -/
def finalState : Except Halt FSState → FSState
  | .ok s => s
  | .error h => haltState h

/-- Python `pid in packages` plus `packages[pid]` on the manifest mapping
(association list in dict insertion order). -/
def lookup (m : List (String × Pkg)) (pid : String) : Option Pkg :=
  (m.find? (fun kv => kv.1 == pid)).map (·.2)

/-- Python `packages[pid] = package`: replace in place, else append. -/
def upsert (m : List (String × Pkg)) (pid : String) (p : Pkg) : List (String × Pkg) :=
  if m.any (fun kv => kv.1 == pid) then
    m.map (fun kv => if kv.1 == pid then (pid, p) else kv)
  else m ++ [(pid, p)]

/-- Python `del packages[pid]`. -/
def eraseKey (m : List (String × Pkg)) (pid : String) : List (String × Pkg) :=
  m.filter (fun kv => !(kv.1 == pid))

/-- `get_installed_packages` from the source: returns the mapping, creating
the manifest file empty when it does not exist. -/
def get_installed_packages (s : FSState) : List (String × Pkg) × FSState :=
  match s.manifest with
  | none => ([], { s with manifest := some [] })
  | some m => (m, s)

/-- `save_installed_packages` from the source: whole-document rewrite. -/
def save_installed_packages (m : List (String × Pkg)) (s : FSState) : FSState :=
  { s with manifest := some m }

/-- `add_package` from the source: read manifest, upsert, save.  Also
appends the id to the observation trace. -/
def add_package (p : Pkg) (s : FSState) : FSState :=
  let r := get_installed_packages s
  let s₁ := save_installed_packages (upsert r.1 p.project_id p) r.2
  { s₁ with addedTrace := s₁.addedTrace ++ [p.project_id] }

/-- `remove_package` from the source: when the id is a manifest key, delete
the artifact file if present, drop the entry, save; otherwise do nothing
beyond the manifest read. -/
def remove_package (core : String) (p : Pkg) (s : FSState) : FSState :=
  let r := get_installed_packages s
  match lookup r.1 p.project_id with
  | none => r.2
  | some rec0 =>
    let filepath := get_install_dir core ++ "/" ++ (file0 rec0).filename
    let s₂ :=
      if filepath ∈ r.2.disk then { r.2 with disk := r.2.disk.erase filepath } else r.2
    save_installed_packages (eraseKey r.1 p.project_id) s₂

/-- `download` from the source: fetch the first file's bytes and write them
to `{install_dir}/{filename}`.  A fetch failure is an uncaught exception;
the file is written only on success. -/
def download (fetch : String → Except String Unit) (core : String) (p : Pkg)
    (s : FSState) : Except String FSState :=
  let fd := file0 p
  match fetch fd.url with
  | .error e => .error e
  | .ok _ =>
    let path := get_install_dir core ++ "/" ++ fd.filename
    .ok { s with disk := if path ∈ s.disk then s.disk else s.disk ++ [path] }

section Resolver

variable {V : Type} [LinearOrder V]

/-- First-argument-wins max step, as Python's `max` keeps the first item
whose key is not strictly exceeded later. -/
def pyStep {α : Type} (key : α → V) (a y : α) : α :=
  if key a < key y then y else a

/-- Fold of `pyStep` over a list from an initial element. -/
def pyMaxFold {α : Type} (key : α → V) (a : α) (l : List α) : α :=
  l.foldl (pyStep key) a

/-- Python `max(l, key=key)` returning `none` on the empty list: the first
element of maximal key. -/
def pyMax {α : Type} (key : α → V) : List α → Option α
  | [] => none
  | x :: xs => some (pyMaxFold key x xs)

/-- Inner loop of `get_plugin` over one candidate's `game_versions`:
return the candidate on an exact parsed match, otherwise accumulate
`(parsed, candidate)` pairs for parsed values below the target; unparsable
strings are skipped. -/
def scanGvs (parse : String → Option V) (target : V) (v : Pkg) :
    List String → List (V × Pkg) → Pkg ⊕ List (V × Pkg)
  | [], cands => Sum.inr cands
  | gv :: rest, cands =>
    match parse gv with
    | none => scanGvs parse target v rest cands
    | some p =>
      if p = target then Sum.inl v
      else if p < target then scanGvs parse target v rest (cands ++ [(p, v)])
      else scanGvs parse target v rest cands

/-- Outer loop of `get_plugin` over the candidate releases, then
`max(candidates, key=fst)` on the accumulated floor pairs. -/
def scanVersions (parse : String → Option V) (target : V) :
    List Pkg → List (V × Pkg) → Option Pkg
  | [], cands => (pyMax Prod.fst cands).map (·.2)
  | v :: rest, cands =>
    match scanGvs parse target v v.game_versions cands with
    | Sum.inl found => some found
    | Sum.inr cands' => scanVersions parse target rest cands'

/-- `get_plugin` from the source after the network call: `listVersions`
models the HTTP fetch (`none` for a non-200 response).  An unparsable
requested version raises, modelled as `.error`. -/
def get_plugin (parse : String → Option V) (listVersions : String → Option (List Pkg))
    (project_id : String) (version : String) : Except String (Option Pkg) :=
  match listVersions project_id with
  | none => .ok none
  | some versions =>
    if versions.isEmpty then .ok none
    else if version == "" then .ok versions.head?
    else
      match parse version with
      | none => .error "InvalidVersion"
      | some target => .ok (scanVersions parse target versions [])

/-- A candidate lists a supported version that parses equal to the target. -/
def hasExact (parse : String → Option V) (target : V) (v : Pkg) : Bool :=
  v.game_versions.any (fun gv => decide (parse gv = some target))

/-- The parsed supported versions of a candidate strictly below the target
(its qualifying floor versions), in list order. -/
def qualKeys (parse : String → Option V) (target : V) : List String → List V
  | [] => []
  | gv :: rest =>
    match parse gv with
    | none => qualKeys parse target rest
    | some p =>
      if p < target then p :: qualKeys parse target rest
      else qualKeys parse target rest

/-- The floor pairs one candidate contributes, in order. -/
def pairsOf (parse : String → Option V) (target : V) (v : Pkg) : List (V × Pkg) :=
  (qualKeys parse target v.game_versions).map (fun p => (p, v))

/-- All floor pairs of a candidate list, in scan order. -/
def allPairs (parse : String → Option V) (target : V) : List Pkg → List (V × Pkg)
  | [] => []
  | v :: vs => pairsOf parse target v ++ allPairs parse target vs

/-- Spec-side: a candidate's best qualifying version — the maximum of its
parsed supported versions not exceeding the target (with no exact match
present, "below" and "not exceeding" coincide). -/
def bestFloor (parse : String → Option V) (target : V) (v : Pkg) : Option V :=
  pyMax id (qualKeys parse target v.game_versions)

/-- Spec-side rendering of the floor rule of section 4.1: among candidates
with at least one qualifying version, take the greatest best-qualifying
value and return the first candidate (in supplied order) achieving it;
`none` when no candidate qualifies. -/
def specFloorResolve (parse : String → Option V) (target : V)
    (versions : List Pkg) : Option Pkg :=
  match pyMax id (versions.filterMap (bestFloor parse target)) with
  | none => none
  | some M => versions.find? (fun v => decide (bestFloor parse target v = some M))

end Resolver

section Engine

variable {V : Type} [LinearOrder V]

/-- Resolution phase of `cmd_install`: for each query, search (the oracle
returns the hits' project ids), take the top hit, resolve a release for
the environment version; a query with no hits or no compatible release is
skipped; a release whose `project_id` was already seen is skipped;
otherwise its id joins the seen-set and the release joins the plan.  An
exception from the resolver propagates. -/
def resolveLoop (search : String → List String)
    (gp : String → Except String (Option Pkg)) :
    List String → List String → List Pkg → Except String (List String × List Pkg)
  | [], seen, acc => .ok (seen, acc)
  | q :: rest, seen, acc =>
    match search q with
    | [] => resolveLoop search gp rest seen acc
    | hit :: _ =>
      match gp hit with
      | .error e => .error e
      | .ok none => resolveLoop search gp rest seen acc
      | .ok (some project) =>
        if project.project_id ∈ seen then resolveLoop search gp rest seen acc
        else resolveLoop search gp rest (seen ++ [project.project_id]) (acc ++ [project])

/-- Per-item dependency pass of the install loop: for each `required`
dependency reference with a non-empty, unseen `project_id`, resolve it;
if resolved, mark seen, record it in the manifest, then download — a
download failure halts the run (uncaught). -/
def installDeps (gp : String → Except String (Option Pkg))
    (fetch : String → Except String Unit) (core : String) :
    List DepRef → List String → FSState → Except Halt (List String × FSState)
  | [], seen, s => .ok (seen, s)
  | d :: rest, seen, s =>
    match d.project_id with
    | none => installDeps gp fetch core rest seen s
    | some did =>
      if did = "" then installDeps gp fetch core rest seen s
      else if did ∈ seen then installDeps gp fetch core rest seen s
      else
        match gp did with
        | .error e => .error (.exc e s)
        | .ok none => installDeps gp fetch core rest seen s
        | .ok (some dep_pkg) =>
          let s₁ := add_package dep_pkg s
          match download fetch core dep_pkg s₁ with
          | .error e => .error (.exc e s₁)
          | .ok s₂ => installDeps gp fetch core rest (seen ++ [dep_pkg.project_id]) s₂

/-- Installation loop of `cmd_install`: per plan item, run the dependency
pass, then record the item in the manifest, then download its artifact;
download failures halt the run (uncaught). -/
def installLoop (gp : String → Except String (Option Pkg))
    (fetch : String → Except String Unit) (core : String) :
    List Pkg → List String → FSState → Except Halt FSState
  | [], _, s => .ok s
  | p :: rest, seen, s =>
    let deps := p.dependencies.filter (fun d => d.dependency_type == "required")
    match installDeps gp fetch core deps seen s with
    | .error h => .error h
    | .ok (seen', s₁) =>
      let s₂ := add_package p s₁
      match download fetch core p s₂ with
      | .error e => .error (.exc e s₂)
      | .ok s₃ => installLoop gp fetch core rest seen' s₃

/-- `cmd_install` from the source: resolve all queries, exit 1 when the
plan is empty, present the plan and ask for confirmation (exit 0 when
declined), then run the installation loop. -/
def cmd_install (parse : String → Option V) (search : String → List String)
    (listVersions : String → Option (List Pkg)) (fetch : String → Except String Unit)
    (confirmAns : Bool) (env : Env) (queries : List String) (s : FSState) :
    Except Halt FSState :=
  match resolveLoop search (fun pid => get_plugin parse listVersions pid env.version)
      queries [] [] with
  | .error e => .error (.exc e s)
  | .ok (_, []) => .error (.exit 1 s)
  | .ok (seen, p :: to_install) =>
    let plan := p :: to_install
    let s₁ := { s with confirmedPlan := some (plan.map (·.project_id)) }
    if confirmAns then
      installLoop (fun pid => get_plugin parse listVersions pid env.version)
        fetch env.core plan seen s₁
    else .error (.exit 0 s₁)

/-- `p.get('title', p.get('name', ''))` from the source. -/
def nameOf (p : Pkg) : String := p.title.getD (p.name.getD "")

/-- The per-entry match test of `cmd_uninstall`: one boolean disjunction of
exact lowercased name equality, lowercased name-substring containment, and
exact lowercased slug equality. -/
def entryMatches (query : String) (kv : String × Pkg) : Bool :=
  let ql := strLower query
  let nm := strLower (nameOf kv.2)
  let sl := strLower (kv.2.slug.getD "")
  decide (ql = nm) || strContains nm ql || decide (ql = sl)

/-- Per-query matching of `cmd_uninstall`: the first manifest entry (in
mapping-iteration order) whose disjunction holds. -/
def matchQuery (query : String) (packages : List (String × Pkg)) : Option Pkg :=
  (packages.find? (entryMatches query)).map (·.2)

/-- `cmd_uninstall` from the source: read the manifest (creating it when
absent), match every query, exit 1 when nothing matched, confirm (exit 0
when declined), then remove each matched package. -/
def cmd_uninstall (confirmAns : Bool) (env : Env) (queries : List String)
    (s : FSState) : Except Halt FSState :=
  let r := get_installed_packages s
  match queries.filterMap (fun q => matchQuery q r.1) with
  | [] => .error (.exit 1 r.2)
  | p :: rest =>
    let to_remove := p :: rest
    let s₁ := { r.2 with confirmedPlan := some (to_remove.map (·.project_id)) }
    if confirmAns then
      .ok (to_remove.foldl (fun st q => remove_package env.core q st) s₁)
    else .error (.exit 0 s₁)

end Engine

section Invariants

/-- Bookkeeping predicate for the dependency pass: on normal return the
trace stays duplicate-free, stays inside the (grown) seen-set, and every
newly traced id was unseen before and stems from a listed dependency
reference with a non-empty id; on a halt the trace is still
duplicate-free with the same origin property.  The confirmation-plan
observation never changes. -/
@[reducible]
def DepsOut (deps : List DepRef) (seen : List String) (s : FSState)
    (r : Except Halt (List String × FSState)) : Prop :=
  match r with
  | .ok (seen', s') =>
      s'.addedTrace.Nodup
      ∧ (∀ id ∈ s'.addedTrace, id ∈ seen')
      ∧ (∀ id ∈ seen, id ∈ seen')
      ∧ (∀ id, id ∈ s'.addedTrace → id ∉ s.addedTrace → id ∉ seen)
      ∧ (∀ id, id ∈ s'.addedTrace → id ∉ s.addedTrace →
          ∃ d ∈ deps, d.project_id = some id ∧ id ≠ "")
      ∧ s'.confirmedPlan = s.confirmedPlan
  | .error h =>
      (haltState h).addedTrace.Nodup
      ∧ (∀ id, id ∈ (haltState h).addedTrace → id ∉ s.addedTrace →
          ∃ d ∈ deps, d.project_id = some id ∧ id ≠ "")
      ∧ (haltState h).confirmedPlan = s.confirmedPlan

end Invariants

section Examples

/-- Concrete release used for the C1 run: one primary, no dependencies. -/
def c1pkg : Pkg :=
  ⟨"P1", some "Alpha", none, some "alpha", [⟨"p1.jar", "u1"⟩], [], ["1"]⟩

/-- Concrete releases used for the C4 run: two primaries. -/
def c4p1 : Pkg :=
  ⟨"P1", some "Alpha", none, some "alpha", [⟨"p1.jar", "u1"⟩], [], ["1"]⟩

/-- Second primary of the C4 run; its download would succeed. -/
def c4p2 : Pkg :=
  ⟨"P2", some "Beta", none, some "beta", [⟨"p2.jar", "u2"⟩], [], ["1"]⟩

/-- C5 run: a package whose name contains the query only as a substring. -/
def c5sub : Pkg := ⟨"p1", some "xfooy", none, none, [], [], []⟩

/-- C5 run: a later package whose name equals the query exactly. -/
def c5exact : Pkg := ⟨"p2", some "foo", none, none, [], [], []⟩

/-- Package used for the C10 runs; its id is not installed. -/
def c10pkg : Pkg := ⟨"Z", some "Zeta", none, none, [⟨"z.jar", "uz"⟩], [], []⟩

/-- Installed package used for the C10 witness state. -/
def c10inst : Pkg := ⟨"A", some "Aaa", none, none, [⟨"a.jar", "ua"⟩], [], []⟩

/-- Installed package used for the C7 witness (uninstall side). -/
def c7inst : Pkg :=
  ⟨"P1", some "Alpha", none, some "alpha", [⟨"p1.jar", "u1"⟩], [], ["1"]⟩

/-- A toy version parser mapping the single string "1" to 1. -/
def parse1 : String → Option Nat := fun s => if s = "1" then some 1 else none

/-- A toy version parser over the strings "5" and "7". -/
def w2parse : String → Option Nat :=
  fun s => if s = "5" then some 5 else if s = "7" then some 7 else none

/-- C2 witness candidate with no exact match for target 7. -/
def w2a : Pkg := ⟨"A", none, none, none, [⟨"a.jar", "ua"⟩], [], ["5"]⟩

/-- C2 witness candidate with an exact match for target 7. -/
def w2b : Pkg := ⟨"B", none, none, none, [⟨"b.jar", "ub"⟩], [], ["7"]⟩

/-- A toy version parser over the strings "19", "20" and "21". -/
def w3parse : String → Option Nat :=
  fun s => if s = "19" then some 19 else if s = "20" then some 20
    else if s = "21" then some 21 else none

/-- C3 witness candidate supporting only 19 (below the target 20). -/
def w3a : Pkg := ⟨"A", none, none, none, [⟨"a.jar", "ua"⟩], [], ["19"]⟩

/-- C3 witness candidate supporting only 21 (above the target 20). -/
def w3d : Pkg := ⟨"D", none, none, none, [⟨"d.jar", "ud"⟩], [], ["21"]⟩

/-- C6 witness primary with one required dependency. -/
def w6p : Pkg :=
  ⟨"P1", some "Alpha", none, some "alpha", [⟨"p1.jar", "u1"⟩],
    [⟨some "D1", "required"⟩], ["1"]⟩

/-- C6 witness dependency release. -/
def w6d : Pkg :=
  ⟨"D1", some "Dep", none, some "dep", [⟨"d1.jar", "u2"⟩], [], ["1"]⟩

/-- C6 witness registry, consistent: each id maps to its own release. -/
def w6lv : String → Option (List Pkg) :=
  fun pid => if pid = "P1" then some [w6p] else if pid = "D1" then some [w6d] else none

/-- C8 primary whose required dependency is D2. -/
def c8p : Pkg :=
  ⟨"P2", some "Gamma", none, some "gamma", [⟨"p2.jar", "u3"⟩],
    [⟨some "D2", "required"⟩], ["1"]⟩

/-- C8 dependency release, itself carrying a required dependency X9 that
must never be walked (one-level expansion). -/
def c8d : Pkg :=
  ⟨"D2", some "Delta", none, some "delta", [⟨"d2.jar", "u4"⟩],
    [⟨some "X9", "required"⟩], ["1"]⟩

/-- C8 registry, consistent: each id maps to its own release. -/
def c8lv : String → Option (List Pkg) :=
  fun pid => if pid = "P2" then some [c8p] else if pid = "D2" then some [c8d] else none

end Examples

section StateLemmas

theorem add_package_addedTrace (p : Pkg) (s : FSState) :
    (add_package p s).addedTrace = s.addedTrace ++ [p.project_id] := by
  unfold add_package get_installed_packages save_installed_packages
  cases s.manifest <;> rfl

theorem add_package_confirmedPlan (p : Pkg) (s : FSState) :
    (add_package p s).confirmedPlan = s.confirmedPlan := by
  unfold add_package get_installed_packages save_installed_packages
  cases s.manifest <;> rfl

theorem download_ok_fields (fetch : String → Except String Unit) (core : String)
    (p : Pkg) (s s' : FSState) (h : download fetch core p s = .ok s') :
    s'.addedTrace = s.addedTrace ∧ s'.confirmedPlan = s.confirmedPlan ∧
      s'.manifest = s.manifest := by
  cases hf : fetch (file0 p).url with
  | error e => simp [download, hf] at h
  | ok u =>
    simp only [download, hf, Except.ok.injEq] at h
    subst h
    exact ⟨rfl, rfl, rfl⟩

theorem filterMap_eq_nil_of_none {α β : Type} (f : α → Option β) :
    ∀ l : List α, (∀ a ∈ l, f a = none) → l.filterMap f = [] := by
  intro l
  induction l with
  | nil => intro _; rfl
  | cons a t ih =>
    intro h
    rw [List.filterMap_cons, h a (by simp)]
    exact ih fun x hx => h x (by simp [hx])

end StateLemmas

section ClaimC1

/-- C1: the claim says the manifest entry is upserted only after the
artifact write succeeds, so a failed item never gains an entry.  The code
calls `add_package` before `download`; evaluating the engine on a run
whose only item's download raises shows the final manifest holding the
item while its file is absent from disk. -/
theorem C1_record_before_write_failure :
    cmd_install parse1 (fun _ => ["P1"]) (fun _ => some [c1pkg])
        (fun _ => .error "timeout") true ⟨"1", "paper"⟩ ["alpha"]
        ⟨some [], [], [], none⟩
      = .error (.exc "timeout" ⟨some [("P1", c1pkg)], [], ["P1"], some ["P1"]⟩)
    ∧ lookup [("P1", c1pkg)] "P1" = some c1pkg
    ∧ (get_install_dir "paper" ++ "/" ++ (file0 c1pkg).filename) ∉ ([] : List String) := by
  refine ⟨?_, by decide, by decide⟩
  rfl

end ClaimC1

section ClaimC4

/-- C4: the claim says a download failure for one plan item is absorbed
and processing continues with the remaining items.  Evaluating a two-item
run whose first download raises shows the exception escaping the
transaction uncaught and the second item never being processed. -/
theorem C4_failure_not_absorbed :
    cmd_install parse1 (fun q => if q = "a" then ["P1"] else ["P2"])
        (fun pid => if pid = "P1" then some [c4p1] else some [c4p2])
        (fun u => if u = "u1" then .error "timeout" else .ok ())
        true ⟨"1", "paper"⟩ ["a", "b"] ⟨some [], [], [], none⟩
      = .error (.exc "timeout"
          ⟨some [("P1", c4p1)], [], ["P1"], some ["P1", "P2"]⟩)
    ∧ "P2" ∉ (["P1"] : List String) := by
  refine ⟨?_, by decide⟩
  rfl

end ClaimC4

section ClaimC7

/-- C7: a transaction declined at confirmation exits with code 0 and
leaves the manifest and the install directory untouched.  The install
side is scoped to runs whose resolution produced a non-empty plan and the
removal side to states whose manifest file exists with at least one
matching query, i.e. exactly the runs that reach the confirmation
prompt. -/
theorem C7_cancel_no_side_effects {V : Type} [LinearOrder V]
    (parse : String → Option V) (search : String → List String)
    (listVersions : String → Option (List Pkg)) (fetch : String → Except String Unit)
    (env : Env) (queries : List String) (s : FSState) :
    (∀ seen plan,
      resolveLoop search (fun pid => get_plugin parse listVersions pid env.version)
          queries [] [] = .ok (seen, plan) → plan ≠ [] →
      ∃ s', cmd_install parse search listVersions fetch false env queries s
          = .error (.exit 0 s')
        ∧ s'.manifest = s.manifest ∧ s'.disk = s.disk)
    ∧ (∀ m, s.manifest = some m →
        queries.filterMap (fun q => matchQuery q m) ≠ [] →
      ∃ s', cmd_uninstall false env queries s = .error (.exit 0 s')
        ∧ s'.manifest = s.manifest ∧ s'.disk = s.disk) := by
  constructor
  · intro seen plan hres hne
    unfold cmd_install
    rw [hres]
    cases plan with
    | nil => exact absurd rfl hne
    | cons p rest =>
      exact ⟨_, rfl, rfl, rfl⟩
  · intro m hm hne
    unfold cmd_uninstall get_installed_packages
    rw [hm]
    simp only
    cases hq : queries.filterMap (fun q => matchQuery q m) with
    | nil => exact absurd hq hne
    | cons p rest =>
      exact ⟨_, rfl, hm, rfl⟩

/-- Closed instantiation of `C7_cancel_no_side_effects` on a concrete
declined install and a concrete declined removal. -/
theorem C7_cancel_witness :
    (∃ s', cmd_install parse1 (fun _ => ["P1"]) (fun _ => some [c7inst])
          (fun _ => .ok ()) false ⟨"1", "paper"⟩ ["alpha"]
          ⟨some [], ["plugins/x.jar"], [], none⟩
        = .error (.exit 0 s')
      ∧ s'.manifest = (⟨some [], ["plugins/x.jar"], [], none⟩ : FSState).manifest
      ∧ s'.disk = (⟨some [], ["plugins/x.jar"], [], none⟩ : FSState).disk)
    ∧ (∃ s', cmd_uninstall false ⟨"1", "paper"⟩ ["alpha"]
          ⟨some [("P1", c7inst)], ["plugins/p1.jar"], [], none⟩
        = .error (.exit 0 s')
      ∧ s'.manifest
          = (⟨some [("P1", c7inst)], ["plugins/p1.jar"], [], none⟩ : FSState).manifest
      ∧ s'.disk
          = (⟨some [("P1", c7inst)], ["plugins/p1.jar"], [], none⟩ : FSState).disk) :=
  ⟨(C7_cancel_no_side_effects parse1 (fun _ => ["P1"]) (fun _ => some [c7inst])
      (fun _ => .ok ()) ⟨"1", "paper"⟩ ["alpha"]
      ⟨some [], ["plugins/x.jar"], [], none⟩).1 ["P1"] [c7inst] rfl (by simp),
   (C7_cancel_no_side_effects parse1 (fun _ => ["P1"]) (fun _ => some [c7inst])
      (fun _ => .ok ()) ⟨"1", "paper"⟩ ["alpha"]
      ⟨some [("P1", c7inst)], ["plugins/p1.jar"], [], none⟩).2 [("P1", c7inst)] rfl
      (by simp [matchQuery, entryMatches, nameOf, c7inst, strContains, subOf, prefOf])⟩

end ClaimC7

section ClaimC5

/-- C5 counterexample: the claim gives exact case-insensitive name matches
priority over substring matches across entries, so the query "foo" should
select the entry named "foo".  The code tests one flat disjunction per
entry in mapping order, so the earlier entry "xfooy", which matches only
as a substring, wins over the later exact match. -/
theorem C5_substring_beats_later_exact :
    matchQuery "foo" [("p1", c5sub), ("p2", c5exact)] = some c5sub
    ∧ strLower (nameOf c5exact) = strLower "foo"
    ∧ strLower (nameOf c5sub) ≠ strLower "foo"
    ∧ ("p2", c5exact) ∈ [("p1", c5sub), ("p2", c5exact)]
    ∧ c5sub ≠ c5exact := by
  refine ⟨by decide, by decide, by decide, by decide, by decide⟩

/-- C5 amended: for each removal query the matched package is the first
manifest entry, in mapping-iteration order, satisfying the single
disjunction of exact lowercased name equality, lowercased name-substring
containment, or exact lowercased slug equality; the three match kinds
carry no priority across entries. -/
theorem C5_first_disjunctive_match (query : String) (packages : List (String × Pkg))
    (p : Pkg) (h : matchQuery query packages = some p) :
    ∃ pre kv post, packages = pre ++ kv :: post ∧ kv.2 = p
      ∧ entryMatches query kv = true
      ∧ ∀ kv' ∈ pre, entryMatches query kv' = false := by
  induction packages with
  | nil => simp [matchQuery] at h
  | cons kv rest ih =>
    by_cases hkv : entryMatches query kv = true
    · refine ⟨[], kv, rest, by simp, ?_, hkv, by simp⟩
      unfold matchQuery at h
      rw [List.find?_cons_of_pos _ hkv] at h
      simpa using h
    · have hkv' : entryMatches query kv = false := by
        cases hb : entryMatches query kv
        · rfl
        · exact absurd hb hkv
      unfold matchQuery at h
      rw [List.find?_cons_of_neg _ (by simp [hkv'])] at h
      obtain ⟨pre, kv₀, post, hsplit, hp, hm, hpre⟩ := ih h
      refine ⟨kv :: pre, kv₀, post, by simp [hsplit], hp, hm, ?_⟩
      intro kv' hkv'mem
      rcases List.mem_cons.mp hkv'mem with h1 | h1
      · rw [h1]; exact hkv'
      · exact hpre kv' h1

/-- Closed instantiation of `C5_first_disjunctive_match` on the concrete
two-entry manifest of the counterexample. -/
theorem C5_first_disjunctive_match_witness :
    ∃ pre kv post, [("p1", c5sub), ("p2", c5exact)] = pre ++ kv :: post
      ∧ kv.2 = c5sub
      ∧ entryMatches "foo" kv = true
      ∧ ∀ kv' ∈ pre, entryMatches "foo" kv' = false :=
  C5_first_disjunctive_match "foo" [("p1", c5sub), ("p2", c5exact)] c5sub (by decide)

end ClaimC5

section ClaimC9

/-- C9 counterexample: the claim says that when every removal query fails
to match, nothing is written and no file is created.  When the manifest
file is absent, the failing removal still creates it (empty) on first
access before exiting with code 1. -/
theorem C9_failing_removal_creates_manifest :
    cmd_uninstall true ⟨"1", "paper"⟩ ["x"] ⟨none, [], [], none⟩
      = .error (.exit 1 ⟨some [], [], [], none⟩)
    ∧ (⟨none, [], [], none⟩ : FSState).manifest = none
    ∧ (⟨some [], [], [], none⟩ : FSState).manifest ≠ none := by
  refine ⟨by rfl, by decide, by decide⟩

/-- All-failing resolution leaves the accumulator untouched. -/
theorem resolveLoop_all_fail (search : String → List String)
    (gp : String → Except String (Option Pkg)) :
    ∀ (queries : List String) (seen : List String) (acc : List Pkg),
    (∀ q ∈ queries, search q = []
      ∨ ∃ h t, search q = h :: t ∧ gp h = .ok none) →
    resolveLoop search gp queries seen acc = .ok (seen, acc) := by
  intro queries
  induction queries with
  | nil => intro seen acc _; rfl
  | cons q rest ih =>
    intro seen acc h
    rcases h q (by simp) with h1 | ⟨hit, t, hs, hg⟩
    · unfold resolveLoop
      rw [h1]
      exact ih seen acc fun x hx => h x (by simp [hx])
    · unfold resolveLoop
      simp only [hs, hg]
      exact ih seen acc fun x hx => h x (by simp [hx])

/-- C9 amended: when every install request fails to resolve, the install
path exits with code 1 and the state is completely untouched; when every
removal query fails to match, the removal path exits with code 1, deletes
or writes no artifact file, and leaves the manifest mapping unchanged —
though the manifest file itself is created empty on first access if it
did not exist. -/
theorem C9_no_resolvable_aborts {V : Type} [LinearOrder V]
    (parse : String → Option V) (search : String → List String)
    (listVersions : String → Option (List Pkg)) (fetch : String → Except String Unit)
    (confirmAns : Bool) (env : Env) (queries : List String) (s : FSState) :
    ((∀ q ∈ queries, search q = []
        ∨ ∃ h t, search q = h :: t
          ∧ get_plugin parse listVersions h env.version = .ok none) →
      cmd_install parse search listVersions fetch confirmAns env queries s
        = .error (.exit 1 s))
    ∧ ((∀ q ∈ queries, matchQuery q (s.manifest.getD []) = none) →
      ∃ s', cmd_uninstall confirmAns env queries s = .error (.exit 1 s')
        ∧ s'.disk = s.disk ∧ s'.addedTrace = s.addedTrace
        ∧ s'.manifest = some (s.manifest.getD [])) := by
  constructor
  · intro h
    unfold cmd_install
    rw [resolveLoop_all_fail search _ queries [] [] h]
  · intro h
    unfold cmd_uninstall get_installed_packages
    cases hm : s.manifest with
    | none =>
      have : queries.filterMap (fun q => matchQuery q ([] : List (String × Pkg))) = [] :=
        filterMap_eq_nil_of_none _ queries fun q hq => by
          have := h q hq; rwa [hm] at this
      simp only
      rw [this]
      exact ⟨_, rfl, rfl, rfl, rfl⟩
    | some m =>
      have : queries.filterMap (fun q => matchQuery q m) = [] :=
        filterMap_eq_nil_of_none _ queries fun q hq => by
          have := h q hq; rwa [hm] at this
      simp only
      rw [this]
      exact ⟨_, rfl, rfl, rfl, by simp [hm]⟩

/-- Closed instantiation of `C9_no_resolvable_aborts`: an install whose
only query finds no hit, and a removal whose only query matches nothing. -/
theorem C9_no_resolvable_aborts_witness :
    (cmd_install parse1 (fun _ => []) (fun _ => none) (fun _ => .ok ()) true
        ⟨"1", "paper"⟩ ["ghost"] ⟨some [], ["plugins/x.jar"], [], none⟩
      = .error (.exit 1 ⟨some [], ["plugins/x.jar"], [], none⟩))
    ∧ (∃ s', cmd_uninstall true ⟨"1", "paper"⟩ ["ghost"]
          ⟨some [("P1", c7inst)], ["plugins/p1.jar"], [], none⟩
        = .error (.exit 1 s')
      ∧ s'.disk = (⟨some [("P1", c7inst)], ["plugins/p1.jar"], [], none⟩ : FSState).disk
      ∧ s'.addedTrace
          = (⟨some [("P1", c7inst)], ["plugins/p1.jar"], [], none⟩ : FSState).addedTrace
      ∧ s'.manifest = some ((⟨some [("P1", c7inst)], ["plugins/p1.jar"], [], none⟩
          : FSState).manifest.getD [])) :=
  ⟨(C9_no_resolvable_aborts parse1 (fun _ => []) (fun _ => none) (fun _ => .ok ()) true
      ⟨"1", "paper"⟩ ["ghost"] ⟨some [], ["plugins/x.jar"], [], none⟩).1
      (fun q _ => Or.inl rfl),
   (C9_no_resolvable_aborts parse1 (fun _ => []) (fun _ => none) (fun _ => .ok ()) true
      ⟨"1", "paper"⟩ ["ghost"]
      ⟨some [("P1", c7inst)], ["plugins/p1.jar"], [], none⟩).2
      (fun q hq => by
        simp only [List.mem_singleton] at hq
        subst hq
        rfl)⟩

end ClaimC9

section ClaimC10

/-- C10 counterexample: the claim says `remove_package` for an absent
`project_id` is a complete no-op.  When the manifest file does not exist,
the call still creates it (empty), changing the state. -/
theorem C10_remove_creates_manifest :
    remove_package "paper" c10pkg ⟨none, ["plugins/q.jar"], [], none⟩
      = ⟨some [], ["plugins/q.jar"], [], none⟩
    ∧ (⟨some [], ["plugins/q.jar"], [], none⟩ : FSState)
      ≠ (⟨none, ["plugins/q.jar"], [], none⟩ : FSState) := by
  refine ⟨by rfl, by decide⟩

/-- C10 amended: when the manifest file exists and the record's
`project_id` is not one of its keys, `remove_package` is a complete
no-op; when the file is absent it is created empty and nothing else
changes; the file-deletion and entry-deletion steps run only when the id
is a manifest key. -/
theorem C10_remove_noop (core : String) (p : Pkg) (s : FSState)
    (m : List (String × Pkg)) :
    (s.manifest = some m → lookup m p.project_id = none →
      remove_package core p s = s)
    ∧ (s.manifest = none →
      remove_package core p s = { s with manifest := some [] }) := by
  constructor
  · intro hm hl
    unfold remove_package get_installed_packages
    rw [hm]
    simp only [hl]
  · intro hm
    unfold remove_package get_installed_packages
    rw [hm]
    simp [lookup]

/-- Closed instantiation of `C10_remove_noop` on both branches. -/
theorem C10_remove_noop_witness :
    remove_package "paper" c10pkg ⟨some [("A", c10inst)], ["plugins/a.jar"], [], none⟩
      = ⟨some [("A", c10inst)], ["plugins/a.jar"], [], none⟩
    ∧ remove_package "paper" c10pkg ⟨none, ["plugins/a.jar"], [], none⟩
      = { (⟨none, ["plugins/a.jar"], [], none⟩ : FSState) with manifest := some [] } :=
  ⟨(C10_remove_noop "paper" c10pkg ⟨some [("A", c10inst)], ["plugins/a.jar"], [], none⟩
      [("A", c10inst)]).1 rfl (by decide),
   (C10_remove_noop "paper" c10pkg ⟨none, ["plugins/a.jar"], [], none⟩ []).2 rfl⟩

end ClaimC10

section ResolverLemmas

variable {V : Type} [LinearOrder V]

/-- When some supported version of the current candidate parses equal to
the target, the inner scan returns that candidate. -/
theorem scanGvs_exact (parse : String → Option V) (target : V) (v : Pkg) :
    ∀ (gvs : List String) (cands : List (V × Pkg)),
    (∃ gv ∈ gvs, parse gv = some target) →
    scanGvs parse target v gvs cands = Sum.inl v := by
  intro gvs
  induction gvs with
  | nil => intro cands h; simp at h
  | cons gv rest ih =>
    intro cands h
    cases hp : parse gv with
    | none =>
      simp only [scanGvs, hp]
      apply ih
      rcases h with ⟨x, hx, hpx⟩
      rcases List.mem_cons.mp hx with rfl | hx'
      · rw [hp] at hpx; exact absurd hpx (by simp)
      · exact ⟨x, hx', hpx⟩
    | some p =>
      by_cases hpt : p = target
      · simp [scanGvs, hp, hpt]
      · have h' : ∃ x ∈ rest, parse x = some target := by
          rcases h with ⟨x, hx, hpx⟩
          rcases List.mem_cons.mp hx with rfl | hx'
          · rw [hp] at hpx
            injection hpx with e
            exact absurd e hpt
          · exact ⟨x, hx', hpx⟩
        by_cases hlt : p < target
        · simp only [scanGvs, hp, if_neg hpt, if_pos hlt]
          exact ih _ h'
        · simp only [scanGvs, hp, if_neg hpt, if_neg hlt]
          exact ih _ h'

/-- When no supported version of the current candidate parses equal to the
target, the inner scan appends exactly the candidate's qualifying floor
pairs to the accumulator. -/
theorem scanGvs_noexact (parse : String → Option V) (target : V) (v : Pkg) :
    ∀ (gvs : List String) (cands : List (V × Pkg)),
    (∀ gv ∈ gvs, parse gv ≠ some target) →
    scanGvs parse target v gvs cands
      = Sum.inr (cands ++ (qualKeys parse target gvs).map (fun p => (p, v))) := by
  intro gvs
  induction gvs with
  | nil => intro cands _; simp [scanGvs, qualKeys]
  | cons gv rest ih =>
    intro cands h
    have hrest : ∀ x ∈ rest, parse x ≠ some target :=
      fun x hx => h x (by simp [hx])
    cases hp : parse gv with
    | none =>
      simp only [scanGvs, hp, qualKeys]
      exact ih cands hrest
    | some p =>
      have hpt : p ≠ target := by
        intro e
        exact h gv (by simp) (by rw [hp, e])
      by_cases hlt : p < target
      · simp only [scanGvs, hp, qualKeys, if_neg hpt, if_pos hlt]
        rw [ih (cands ++ [(p, v)]) hrest]
        simp
      · simp only [scanGvs, hp, qualKeys, if_neg hpt, if_neg hlt]
        exact ih cands hrest

/-- The outer scan returns the first candidate with an exact match,
whatever the accumulator holds. -/
theorem scan_exact_first (parse : String → Option V) (target : V) :
    ∀ (versions : List Pkg) (cands : List (V × Pkg)) (w : Pkg),
    versions.find? (fun v => hasExact parse target v) = some w →
    scanVersions parse target versions cands = some w := by
  intro versions
  induction versions with
  | nil => intro cands w h; simp at h
  | cons v rest ih =>
    intro cands w h
    cases hx : hasExact parse target v with
    | true =>
      rw [List.find?_cons_of_pos _ hx] at h
      injection h with h
      subst h
      have hex : ∃ gv ∈ v.game_versions, parse gv = some target := by
        have := List.any_eq_true.mp hx
        simpa using this
      simp only [scanVersions, scanGvs_exact parse target v v.game_versions cands hex]
    | false =>
      rw [List.find?_cons_of_neg _ (by simp [hx])] at h
      have hne : ∀ gv ∈ v.game_versions, parse gv ≠ some target := by
        have := List.any_eq_false.mp hx
        simpa using this
      simp only [scanVersions, scanGvs_noexact parse target v v.game_versions cands hne]
      exact ih _ w h

end ResolverLemmas

section ClaimC2

/-- C2: for a non-empty candidate list and non-empty parseable target
version, if some candidate's supported-version set contains a version
parsing equal to the target, `get_plugin` returns the first such
candidate in the supplied order, regardless of all other candidates. -/
theorem C2_exact_match_precedence {V : Type} [LinearOrder V]
    (parse : String → Option V) (listVersions : String → Option (List Pkg))
    (pid version : String) (versions : List Pkg) (target : V)
    (hlv : listVersions pid = some versions)
    (hver : version ≠ "")
    (hparse : parse version = some target)
    (hex : ∃ v ∈ versions, hasExact parse target v = true) :
    (versions.find? (fun v => hasExact parse target v)).isSome = true
    ∧ get_plugin parse listVersions pid version
        = .ok (versions.find? (fun v => hasExact parse target v)) := by
  have hfind : (versions.find? (fun v => hasExact parse target v)).isSome = true := by
    rw [List.find?_isSome]
    exact hex
  obtain ⟨w, hw⟩ := Option.isSome_iff_exists.mp hfind
  have hne : versions ≠ [] := by
    rintro rfl
    simp at hw
  refine ⟨hfind, ?_⟩
  have h1 : versions.isEmpty = false := by
    cases versions with
    | nil => exact absurd rfl hne
    | cons a t => rfl
  have h2 : (version == "") = false := by
    rw [beq_eq_false_iff_ne]
    exact hver
  unfold get_plugin
  rw [hlv]
  simp only [h1, h2, hparse, Bool.false_eq_true, if_false]
  rw [hw, scan_exact_first parse target versions [] w hw]

/-- Closed instantiation of `C2_exact_match_precedence`: target 7 with an
exact-matching second candidate. -/
theorem C2_exact_match_precedence_witness :
    (∃ v ∈ [w2a, w2b], hasExact w2parse 7 v = true)
    ∧ (([w2a, w2b].find? (fun v => hasExact w2parse 7 v)).isSome = true
      ∧ get_plugin w2parse (fun _ => some [w2a, w2b]) "P" "7"
          = .ok ([w2a, w2b].find? (fun v => hasExact w2parse 7 v))) :=
  ⟨by decide,
   C2_exact_match_precedence w2parse (fun _ => some [w2a, w2b]) "P" "7"
     [w2a, w2b] 7 rfl (by decide) rfl (by decide)⟩

end ClaimC2

section PyMaxLemmas

variable {V : Type} [LinearOrder V] {α : Type}

theorem pyStep_assoc (key : α → V) (a y b : α) :
    pyStep key (pyStep key a y) b = pyStep key a (pyStep key y b) := by
  unfold pyStep
  split_ifs <;>
    first
      | rfl
      | exact absurd (lt_trans ‹key a < key y› ‹key y < key b›) ‹¬key a < key b›
      | exact absurd ‹key a < key b›
          (not_lt.mpr (le_trans (le_of_not_lt ‹¬key y < key b›)
            (le_of_not_lt ‹¬key a < key y›)))

/-- The running fold of Python's `max` equals a single `pyStep` against
the max of the tail (or the seed when the tail is empty). -/
theorem pyMaxFold_step (key : α → V) :
    ∀ l : List α,
    (pyMax key l = none ∧ ∀ a, pyMaxFold key a l = a)
    ∨ (∃ b, pyMax key l = some b ∧ ∀ a, pyMaxFold key a l = pyStep key a b) := by
  intro l
  induction l with
  | nil => exact Or.inl ⟨rfl, fun a => rfl⟩
  | cons y ys ih =>
    rcases ih with ⟨h1, h2⟩ | ⟨b, h1, h2⟩
    · refine Or.inr ⟨y, ?_, ?_⟩
      · show some (pyMaxFold key y ys) = some y
        rw [h2 y]
      · intro a
        show pyMaxFold key (pyStep key a y) ys = pyStep key a y
        exact h2 _
    · refine Or.inr ⟨pyStep key y b, ?_, ?_⟩
      · show some (pyMaxFold key y ys) = some (pyStep key y b)
        rw [h2 y]
      · intro a
        show pyMaxFold key (pyStep key a y) ys = pyStep key a (pyStep key y b)
        rw [h2 (pyStep key a y)]
        exact pyStep_assoc key a y b

theorem pyMax_append (key : α → V) :
    ∀ l₁ l₂ : List α,
    pyMax key (l₁ ++ l₂)
      = match pyMax key l₁, pyMax key l₂ with
        | none, m => m
        | some x, none => some x
        | some x, some y => some (pyStep key x y) := by
  intro l₁ l₂
  cases l₁ with
  | nil =>
    cases h : pyMax key l₂ <;> simp [h] <;> rfl
  | cons x xs =>
    have hfold : pyMaxFold key x (xs ++ l₂) = pyMaxFold key (pyMaxFold key x xs) l₂ := by
      unfold pyMaxFold
      rw [List.foldl_append]
    rcases pyMaxFold_step key l₂ with ⟨h1, h2⟩ | ⟨b, h1, h2⟩
    · show some (pyMaxFold key x (xs ++ l₂)) = _
      rw [hfold, h2, h1]
      rfl
    · show some (pyMaxFold key x (xs ++ l₂)) = _
      rw [hfold, h2, h1]
      rfl

theorem pyStep_fst_pair (v : Pkg) (k j : V) :
    pyStep Prod.fst ((k, v) : V × Pkg) (j, v) = (pyStep id k j, v) := by
  unfold pyStep
  by_cases h : k < j <;> simp [h]

theorem pyMaxFold_fst_pairs (v : Pkg) :
    ∀ (ks : List V) (k : V),
    pyMaxFold Prod.fst ((k, v) : V × Pkg) (ks.map (fun p => (p, v)))
      = (pyMaxFold id k ks, v) := by
  intro ks
  induction ks with
  | nil => intro k; rfl
  | cons j jt ih =>
    intro k
    show pyMaxFold Prod.fst (pyStep Prod.fst (k, v) (j, v)) (jt.map _)
      = (pyMaxFold id (pyStep id k j) jt, v)
    rw [pyStep_fst_pair]
    exact ih (pyStep id k j)

theorem pyMax_fst_pairs (v : Pkg) (ks : List V) :
    pyMax Prod.fst (ks.map (fun p => ((p, v) : V × Pkg)))
      = (pyMax id ks).map (fun m => (m, v)) := by
  cases ks with
  | nil => rfl
  | cons k kt =>
    show some (pyMaxFold Prod.fst (k, v) (kt.map _)) = some (pyMaxFold id k kt, v)
    rw [pyMaxFold_fst_pairs v kt k]

theorem pyMaxFold_mem (key : α → V) :
    ∀ (l : List α) (a : α), pyMaxFold key a l = a ∨ pyMaxFold key a l ∈ l := by
  intro l
  induction l with
  | nil => intro a; exact Or.inl rfl
  | cons y ys ih =>
    intro a
    show pyMaxFold key (pyStep key a y) ys = a ∨ pyMaxFold key (pyStep key a y) ys ∈ y :: ys
    rcases ih (pyStep key a y) with h | h
    · rw [h]
      unfold pyStep
      by_cases hc : key a < key y
      · right; simp [hc]
      · left; simp [hc]
    · right; exact List.mem_cons_of_mem y h

theorem pyMax_mem (key : α → V) (l : List α) (x : α) (h : pyMax key l = some x) :
    x ∈ l := by
  cases l with
  | nil => simp [pyMax] at h
  | cons a t =>
    have hx : pyMaxFold key a t = x := by
      have : some (pyMaxFold key a t) = some x := h
      injection this
    rcases pyMaxFold_mem key t a with h1 | h1
    · rw [hx] at h1
      rw [h1]
      exact List.mem_cons_self a t
    · rw [hx] at h1
      exact List.mem_cons_of_mem a h1

theorem qualKeys_lt (parse : String → Option V) (target : V) :
    ∀ (gvs : List String) (p : V), p ∈ qualKeys parse target gvs → p < target := by
  intro gvs
  induction gvs with
  | nil => intro p h; simp [qualKeys] at h
  | cons gv rest ih =>
    intro p h
    cases hp : parse gv with
    | none =>
      simp only [qualKeys, hp] at h
      exact ih p h
    | some q =>
      by_cases hq : q < target
      · simp only [qualKeys, hp, if_pos hq] at h
        rcases List.mem_cons.mp h with rfl | h'
        · exact hq
        · exact ih p h'
      · simp only [qualKeys, hp, if_neg hq] at h
        exact ih p h

/-- With no exact match anywhere, the scan computes the first-wins max of
the accumulated pairs followed by all candidates' floor pairs. -/
theorem scan_noexact (parse : String → Option V) (target : V) :
    ∀ (versions : List Pkg) (cands : List (V × Pkg)),
    (∀ v ∈ versions, hasExact parse target v = false) →
    scanVersions parse target versions cands
      = (pyMax Prod.fst (cands ++ allPairs parse target versions)).map (·.2) := by
  intro versions
  induction versions with
  | nil => intro cands _; simp [scanVersions, allPairs]
  | cons v rest ih =>
    intro cands h
    have hv : ∀ gv ∈ v.game_versions, parse gv ≠ some target := by
      have := List.any_eq_false.mp (h v (by simp))
      simpa using this
    simp only [scanVersions,
      scanGvs_noexact parse target v v.game_versions cands hv]
    rw [ih _ (fun x hx => h x (by simp [hx]))]
    simp only [allPairs, pairsOf]
    rw [List.append_assoc]

/-- First-wins max over all floor pairs picks the greatest best-qualifying
value and, among candidates achieving it, the first in supplied order. -/
theorem pyMax_allPairs (parse : String → Option V) (target : V) :
    ∀ versions : List Pkg,
    pyMax Prod.fst (allPairs parse target versions)
      = match pyMax id (versions.filterMap (bestFloor parse target)) with
        | none => none
        | some M =>
          (versions.find? (fun v => decide (bestFloor parse target v = some M))).map
            (fun w => (M, w)) := by
  intro versions
  induction versions with
  | nil => rfl
  | cons v vs ih =>
    rw [show allPairs parse target (v :: vs)
        = pairsOf parse target v ++ allPairs parse target vs from rfl]
    rw [pyMax_append]
    rw [show pairsOf parse target v
        = (qualKeys parse target v.game_versions).map (fun p => (p, v)) from rfl]
    rw [pyMax_fst_pairs]
    cases hb : bestFloor parse target v with
    | none =>
      rw [show pyMax id (qualKeys parse target v.game_versions)
          = bestFloor parse target v from rfl, hb]
      rw [List.filterMap_cons_none hb]
      rw [ih]
      cases hM : pyMax id (vs.filterMap (bestFloor parse target)) with
      | none => simp [hM]
      | some M =>
        simp only [hM, Option.map_none']
        have hneg : ¬((fun u => decide (bestFloor parse target u = some M)) v = true) := by
          simp [hb]
        rw [List.find?_cons_of_neg
          (p := fun u => decide (bestFloor parse target u = some M)) vs hneg]
    | some m =>
      rw [show pyMax id (qualKeys parse target v.game_versions)
          = bestFloor parse target v from rfl, hb]
      rw [List.filterMap_cons_some hb]
      rw [ih]
      cases hM : pyMax id (vs.filterMap (bestFloor parse target)) with
      | none =>
        have hfold : pyMaxFold id m (vs.filterMap (bestFloor parse target)) = m := by
          rcases pyMaxFold_step id (vs.filterMap (bestFloor parse target)) with
            ⟨h1, h2⟩ | ⟨b, h1, h2⟩
          · exact h2 m
          · rw [h1] at hM; exact absurd hM (by simp)
        rw [show pyMax id (m :: vs.filterMap (bestFloor parse target))
            = some (pyMaxFold id m (vs.filterMap (bestFloor parse target))) from rfl]
        rw [hfold]
        have hpos : (fun u => decide (bestFloor parse target u = some m)) v = true := by
          simp [hb]
        show _ = Option.map (fun w => (m, w))
          (List.find? (fun u => decide (bestFloor parse target u = some m)) (v :: vs))
        rw [List.find?_cons_of_pos
          (p := fun u => decide (bestFloor parse target u = some m)) vs hpos]
        rfl
      | some M' =>
        have hfold : pyMaxFold id m (vs.filterMap (bestFloor parse target))
            = pyStep id m M' := by
          rcases pyMaxFold_step id (vs.filterMap (bestFloor parse target)) with
            ⟨h1, h2⟩ | ⟨b, h1, h2⟩
          · rw [h1] at hM; exact absurd hM (by simp)
          · rw [h1] at hM
            injection hM with e
            rw [h2 m, e]
        have hmem : M' ∈ vs.filterMap (bestFloor parse target) :=
          pyMax_mem id _ M' hM
        obtain ⟨u, hu, hbu⟩ := List.mem_filterMap.mp hmem
        have hfindSome : (vs.find? (fun t => decide (bestFloor parse target t = some M'))).isSome
            = true := by
          rw [List.find?_isSome]
          exact ⟨u, hu, by simp [hbu]⟩
        obtain ⟨w, hw⟩ := Option.isSome_iff_exists.mp hfindSome
        rw [show pyMax id (m :: vs.filterMap (bestFloor parse target))
            = some (pyMaxFold id m (vs.filterMap (bestFloor parse target))) from rfl]
        rw [hfold]
        simp only [hM, hw, Option.map_some']
        by_cases hlt : m < M'
        · rw [show pyStep id m M' = M' from by unfold pyStep; simp [hlt]]
          have hneg : ¬((fun u => decide (bestFloor parse target u = some M')) v = true) := by
            simp only [decide_eq_true_eq, hb, Option.some.injEq]
            exact ne_of_lt hlt
          show _ = Option.map (fun u => (M', u))
            (List.find? (fun u => decide (bestFloor parse target u = some M')) (v :: vs))
          rw [List.find?_cons_of_neg
            (p := fun u => decide (bestFloor parse target u = some M')) vs hneg, hw]
          show some (pyStep Prod.fst ((m, v) : V × Pkg) (M', w)) = some (M', w)
          rw [show pyStep Prod.fst ((m, v) : V × Pkg) (M', w) = (M', w) from by
            unfold pyStep; simp [hlt]]
        · rw [show pyStep id m M' = m from by unfold pyStep; simp [hlt]]
          have hpos : (fun u => decide (bestFloor parse target u = some m)) v = true := by
            simp [hb]
          show _ = Option.map (fun u => (m, u))
            (List.find? (fun u => decide (bestFloor parse target u = some m)) (v :: vs))
          rw [List.find?_cons_of_pos
            (p := fun u => decide (bestFloor parse target u = some m)) vs hpos]
          show some (pyStep Prod.fst ((m, v) : V × Pkg) (M', w)) = some (m, v)
          rw [show pyStep Prod.fst ((m, v) : V × Pkg) (M', w) = (m, v) from by
            unfold pyStep; simp [hlt]]

end PyMaxLemmas

section ClaimC3

/-- C3: with no exact match, `get_plugin` computes exactly the spec-side
floor rule: only candidates with a parseable supported version below the
target qualify, the winner has the greatest best-qualifying value,
ties go to the first candidate in supplied order, and the result is
`none` when no candidate qualifies.  In particular the winner always has
a parseable supported version not exceeding the target, so a candidate
whose every parseable version exceeds the target is never returned. -/
theorem C3_floor_resolution {V : Type} [LinearOrder V]
    (parse : String → Option V) (listVersions : String → Option (List Pkg))
    (pid version : String) (versions : List Pkg) (target : V)
    (hlv : listVersions pid = some versions)
    (hne : versions ≠ [])
    (hver : version ≠ "")
    (hparse : parse version = some target)
    (hnoex : ∀ v ∈ versions, hasExact parse target v = false) :
    get_plugin parse listVersions pid version
      = .ok (specFloorResolve parse target versions)
    ∧ (∀ w, specFloorResolve parse target versions = some w →
        ∃ M, bestFloor parse target w = some M
          ∧ M ∈ qualKeys parse target w.game_versions ∧ M ≤ target)
    ∧ ((∀ v ∈ versions, bestFloor parse target v = none) →
        specFloorResolve parse target versions = none) := by
  refine ⟨?_, ?_, ?_⟩
  · have h1 : versions.isEmpty = false := by
      cases versions with
      | nil => exact absurd rfl hne
      | cons a t => rfl
    have h2 : (version == "") = false := by
      rw [beq_eq_false_iff_ne]
      exact hver
    unfold get_plugin
    rw [hlv]
    simp only [h1, h2, hparse, Bool.false_eq_true, if_false]
    rw [scan_noexact parse target versions [] hnoex]
    rw [List.nil_append]
    rw [pyMax_allPairs parse target versions]
    unfold specFloorResolve
    cases hM : pyMax id (versions.filterMap (bestFloor parse target)) with
    | none => rfl
    | some M =>
      show Except.ok (Option.map (fun x => x.2) (Option.map (fun w => (M, w))
          (versions.find? (fun v => decide (bestFloor parse target v = some M)))))
        = Except.ok (versions.find? (fun v => decide (bestFloor parse target v = some M)))
      cases hf : versions.find? (fun v => decide (bestFloor parse target v = some M)) with
      | none => rfl
      | some w => rfl
  · intro w hsp
    unfold specFloorResolve at hsp
    cases hM : pyMax id (versions.filterMap (bestFloor parse target)) with
    | none => rw [hM] at hsp; exact absurd hsp (by simp)
    | some M =>
      rw [hM] at hsp
      have hbf : bestFloor parse target w = some M := by
        have := List.find?_some hsp
        exact of_decide_eq_true this
      have hmem : M ∈ qualKeys parse target w.game_versions :=
        pyMax_mem id _ M hbf
      exact ⟨M, hbf, hmem, le_of_lt (qualKeys_lt parse target w.game_versions M hmem)⟩
  · intro hall
    unfold specFloorResolve
    rw [filterMap_eq_nil_of_none _ versions hall]
    rfl

/-- Closed instantiation of `C3_floor_resolution`: target 20 with
candidates supporting 19 and 21; the resolver must take the 19 one. -/
theorem C3_floor_resolution_witness :
    get_plugin w3parse (fun _ => some [w3a, w3d]) "P" "20"
      = .ok (specFloorResolve w3parse 20 [w3a, w3d])
    ∧ (∀ w, specFloorResolve w3parse 20 [w3a, w3d] = some w →
        ∃ M, bestFloor w3parse 20 w = some M
          ∧ M ∈ qualKeys w3parse 20 w.game_versions ∧ M ≤ 20)
    ∧ ((∀ v ∈ [w3a, w3d], bestFloor w3parse 20 v = none) →
        specFloorResolve w3parse 20 [w3a, w3d] = none) :=
  C3_floor_resolution w3parse (fun _ => some [w3a, w3d]) "P" "20" [w3a, w3d] 20
    rfl (by decide) (by decide) rfl (by decide)

end ClaimC3

section EngineLemmas

variable {V : Type} [LinearOrder V]

theorem nodup_concat {α : Type} {a : α} {l : List α} (h : l.Nodup) (ha : a ∉ l) :
    (l ++ [a]).Nodup := by
  rw [List.nodup_append]
  refine ⟨h, List.nodup_singleton a, ?_⟩
  intro x hx hx'
  rw [List.mem_singleton] at hx'
  subst hx'
  exact ha hx

theorem scanGvs_inl (parse : String → Option V) (target : V) (v : Pkg) :
    ∀ (gvs : List String) (cands : List (V × Pkg)) (w : Pkg),
    scanGvs parse target v gvs cands = Sum.inl w → w = v := by
  intro gvs
  induction gvs with
  | nil => intro cands w h; simp [scanGvs] at h
  | cons gv rest ih =>
    intro cands w h
    cases hp : parse gv with
    | none =>
      simp only [scanGvs, hp] at h
      exact ih _ _ h
    | some p =>
      by_cases hpt : p = target
      · simp only [scanGvs, hp, if_pos hpt] at h
        injection h with e
        exact e.symm
      · by_cases hlt : p < target
        · simp only [scanGvs, hp, if_neg hpt, if_pos hlt] at h
          exact ih _ _ h
        · simp only [scanGvs, hp, if_neg hpt, if_neg hlt] at h
          exact ih _ _ h

theorem scanGvs_inr_sub (parse : String → Option V) (target : V) (v : Pkg) :
    ∀ (gvs : List String) (cands cs : List (V × Pkg)),
    scanGvs parse target v gvs cands = Sum.inr cs →
    ∀ x ∈ cs, x ∈ cands ∨ x.2 = v := by
  intro gvs
  induction gvs with
  | nil =>
    intro cands cs h x hx
    simp only [scanGvs] at h
    injection h with e
    subst e
    exact Or.inl hx
  | cons gv rest ih =>
    intro cands cs h x hx
    cases hp : parse gv with
    | none =>
      simp only [scanGvs, hp] at h
      exact ih _ _ h x hx
    | some p =>
      by_cases hpt : p = target
      · simp only [scanGvs, hp, if_pos hpt] at h
        exact absurd h (by simp)
      · by_cases hlt : p < target
        · simp only [scanGvs, hp, if_neg hpt, if_pos hlt] at h
          rcases ih _ _ h x hx with hmem | hv
          · rcases List.mem_append.mp hmem with h1 | h1
            · exact Or.inl h1
            · right
              have : x = (p, v) := by simpa using h1
              rw [this]
          · exact Or.inr hv
        · simp only [scanGvs, hp, if_neg hpt, if_neg hlt] at h
          exact ih _ _ h x hx

theorem scan_mem (parse : String → Option V) (target : V) :
    ∀ (versions : List Pkg) (cands : List (V × Pkg)) (w : Pkg),
    scanVersions parse target versions cands = some w →
    w ∈ versions ∨ ∃ k, (k, w) ∈ cands := by
  intro versions
  induction versions with
  | nil =>
    intro cands w h
    simp only [scanVersions] at h
    cases hp : pyMax Prod.fst cands with
    | none => rw [hp] at h; exact absurd h (by simp)
    | some pr =>
      rw [hp] at h
      right
      refine ⟨pr.1, ?_⟩
      have hw : pr.2 = w := by simpa using h
      have hm : pr ∈ cands := pyMax_mem Prod.fst cands pr hp
      rw [← hw]
      exact hm
  | cons v rest ih =>
    intro cands w h
    cases hs : scanGvs parse target v v.game_versions cands with
    | inl found =>
      simp only [scanVersions, hs] at h
      injection h with e
      subst e
      left
      rw [scanGvs_inl parse target v _ _ found hs]
      exact List.mem_cons_self v rest
    | inr cs =>
      simp only [scanVersions, hs] at h
      rcases ih cs w h with h1 | ⟨k, hk⟩
      · exact Or.inl (List.mem_cons_of_mem v h1)
      · rcases scanGvs_inr_sub parse target v _ _ _ hs (k, w) hk with h2 | h2
        · exact Or.inr ⟨k, h2⟩
        · left
          simp only at h2
          rw [h2]
          exact List.mem_cons_self v rest

/-- A release returned by `get_plugin` belongs to the fetched release
list of the requested project. -/
theorem get_plugin_mem (parse : String → Option V)
    (listVersions : String → Option (List Pkg)) (pid ver : String) (p : Pkg)
    (h : get_plugin parse listVersions pid ver = .ok (some p)) :
    ∃ l, listVersions pid = some l ∧ p ∈ l := by
  unfold get_plugin at h
  cases hlv : listVersions pid with
  | none => rw [hlv] at h; exact absurd h (by simp)
  | some versions =>
    rw [hlv] at h
    refine ⟨versions, rfl, ?_⟩
    cases versions with
    | nil => simp at h
    | cons a t =>
      simp only [List.isEmpty_cons, Bool.false_eq_true, if_false] at h
      by_cases hv : (ver == "") = true
      · rw [if_pos hv] at h
        have : some a = some p := by simpa using h
        injection this with e
        rw [← e]
        exact List.mem_cons_self a t
      · rw [if_neg hv] at h
        cases hp : parse ver with
        | none => rw [hp] at h; exact absurd h (by simp)
        | some target =>
          rw [hp] at h
          have hscan : scanVersions parse target (a :: t) [] = some p := by
            injection h
          rcases scan_mem parse target (a :: t) [] p hscan with h1 | ⟨k, hk⟩
          · exact h1
          · simp at hk

/-- The resolution loop preserves: plan ids are distinct and all lie in
the seen-set, and the seen-set only grows. -/
theorem resolveLoop_inv (search : String → List String)
    (gp : String → Except String (Option Pkg)) :
    ∀ (queries seen : List String) (acc : List Pkg)
      (seen' : List String) (acc' : List Pkg),
    resolveLoop search gp queries seen acc = .ok (seen', acc') →
    (acc.map (·.project_id)).Nodup →
    (∀ p ∈ acc, p.project_id ∈ seen) →
    (∀ id ∈ seen, id ∈ seen')
    ∧ (acc'.map (·.project_id)).Nodup
    ∧ (∀ p ∈ acc', p.project_id ∈ seen') := by
  intro queries
  induction queries with
  | nil =>
    intro seen acc seen' acc' h hnd hsub
    simp only [resolveLoop] at h
    injection h with e
    injection e with e1 e2
    subst e1
    subst e2
    exact ⟨fun id hid => hid, hnd, hsub⟩
  | cons q rest ih =>
    intro seen acc seen' acc' h hnd hsub
    cases hsq : search q with
    | nil =>
      simp only [resolveLoop, hsq] at h
      exact ih _ _ _ _ h hnd hsub
    | cons hit t =>
      cases hg : gp hit with
      | error e =>
        simp only [resolveLoop, hsq, hg] at h
        exact absurd h (by simp)
      | ok op =>
        cases op with
        | none =>
          simp only [resolveLoop, hsq, hg] at h
          exact ih _ _ _ _ h hnd hsub
        | some project =>
          simp only [resolveLoop, hsq, hg] at h
          by_cases hseen : project.project_id ∈ seen
          · rw [if_pos hseen] at h
            exact ih _ _ _ _ h hnd hsub
          · rw [if_neg hseen] at h
            have hnd' : ((acc ++ [project]).map (·.project_id)).Nodup := by
              rw [List.map_append]
              refine nodup_concat hnd ?_
              intro hmem
              rcases List.mem_map.mp hmem with ⟨p, hp, he⟩
              simp only at he
              exact hseen (he ▸ hsub p hp)
            have hsub' : ∀ p ∈ acc ++ [project],
                p.project_id ∈ seen ++ [project.project_id] := by
              intro p hp
              rcases List.mem_append.mp hp with h1 | h1
              · exact List.mem_append.mpr (Or.inl (hsub p h1))
              · rw [List.mem_singleton] at h1
                subst h1
                simp
            obtain ⟨hmono, hnd2, hsub2⟩ := ih _ _ _ _ h hnd' hsub'
            exact ⟨fun id hid => hmono id (List.mem_append.mpr (Or.inl hid)),
              hnd2, hsub2⟩

end EngineLemmas

section LoopInvariants

theorem DepsOut_cons (d : DepRef) (deps : List DepRef) (seen : List String)
    (s : FSState) (r : Except Halt (List String × FSState))
    (h : DepsOut deps seen s r) : DepsOut (d :: deps) seen s r := by
  cases r with
  | ok pr =>
    obtain ⟨seen', s'⟩ := pr
    obtain ⟨a, b, c, dd, e, f⟩ := h
    refine ⟨a, b, c, dd, ?_, f⟩
    intro id h1 h2
    obtain ⟨d', hm, hp⟩ := e id h1 h2
    exact ⟨d', List.mem_cons_of_mem d hm, hp⟩
  | error hh =>
    obtain ⟨a, b, c⟩ := h
    refine ⟨a, ?_, c⟩
    intro id h1 h2
    obtain ⟨d', hm, hp⟩ := b id h1 h2
    exact ⟨d', List.mem_cons_of_mem d hm, hp⟩

/-- The dependency pass of the install loop satisfies `DepsOut`, assuming
the registry interface returns releases of the requested project. -/
theorem installDeps_inv (gp : String → Except String (Option Pkg))
    (fetch : String → Except String Unit) (core : String)
    (hgp : ∀ pid p, gp pid = .ok (some p) → p.project_id = pid) :
    ∀ (deps : List DepRef) (seen : List String) (s : FSState),
    s.addedTrace.Nodup → (∀ id ∈ s.addedTrace, id ∈ seen) →
    DepsOut deps seen s (installDeps gp fetch core deps seen s) := by
  intro deps
  induction deps with
  | nil =>
    intro seen s hA hB
    exact ⟨hA, hB, fun id h => h, fun id h1 h2 => absurd h1 h2,
      fun id h1 h2 => absurd h1 h2, rfl⟩
  | cons d rest ih =>
    intro seen s hA hB
    cases hd : d.project_id with
    | none =>
      have hred : installDeps gp fetch core (d :: rest) seen s
          = installDeps gp fetch core rest seen s := by
        simp only [installDeps, hd]
      rw [hred]
      exact DepsOut_cons d rest seen s _ (ih seen s hA hB)
    | some did =>
      by_cases h0 : did = ""
      · have hred : installDeps gp fetch core (d :: rest) seen s
            = installDeps gp fetch core rest seen s := by
          simp only [installDeps, hd, if_pos h0]
        rw [hred]
        exact DepsOut_cons d rest seen s _ (ih seen s hA hB)
      · by_cases h1 : did ∈ seen
        · have hred : installDeps gp fetch core (d :: rest) seen s
              = installDeps gp fetch core rest seen s := by
            simp only [installDeps, hd, if_neg h0, if_pos h1]
          rw [hred]
          exact DepsOut_cons d rest seen s _ (ih seen s hA hB)
        · cases hg : gp did with
          | error e =>
            have hred : installDeps gp fetch core (d :: rest) seen s
                = .error (.exc e s) := by
              simp only [installDeps, hd, if_neg h0, if_neg h1, hg]
            rw [hred]
            exact ⟨hA, fun id hm hnm => absurd hm hnm, rfl⟩
          | ok op =>
            cases op with
            | none =>
              have hred : installDeps gp fetch core (d :: rest) seen s
                  = installDeps gp fetch core rest seen s := by
                simp only [installDeps, hd, if_neg h0, if_neg h1, hg]
              rw [hred]
              exact DepsOut_cons d rest seen s _ (ih seen s hA hB)
            | some dep_pkg =>
              have hpid : dep_pkg.project_id = did := hgp did dep_pkg hg
              have hdidtr : did ∉ s.addedTrace := fun hin => h1 (hB did hin)
              have htr1 : (add_package dep_pkg s).addedTrace
                  = s.addedTrace ++ [did] := by
                rw [add_package_addedTrace, hpid]
              have hA1 : (add_package dep_pkg s).addedTrace.Nodup := by
                rw [htr1]
                exact nodup_concat hA hdidtr
              have hpl1 : (add_package dep_pkg s).confirmedPlan = s.confirmedPlan :=
                add_package_confirmedPlan dep_pkg s
              cases hdl : download fetch core dep_pkg (add_package dep_pkg s) with
              | error e =>
                have hred : installDeps gp fetch core (d :: rest) seen s
                    = .error (.exc e (add_package dep_pkg s)) := by
                  simp only [installDeps, hd, if_neg h0, if_neg h1, hg, hdl]
                rw [hred]
                refine ⟨hA1, ?_, hpl1⟩
                intro id hm hnm
                have hm' : id ∈ (add_package dep_pkg s).addedTrace := hm
                rw [htr1] at hm'
                rcases List.mem_append.mp hm' with hmm | hmm
                · exact absurd hmm hnm
                · rw [List.mem_singleton] at hmm
                  subst hmm
                  exact ⟨d, List.mem_cons_self d rest, hd, h0⟩
              | ok s₂ =>
                obtain ⟨htr2, hpl2, _⟩ :=
                  download_ok_fields fetch core dep_pkg _ s₂ hdl
                have hred : installDeps gp fetch core (d :: rest) seen s
                    = installDeps gp fetch core rest
                        (seen ++ [dep_pkg.project_id]) s₂ := by
                  simp only [installDeps, hd, if_neg h0, if_neg h1, hg, hdl]
                rw [hred]
                have hA2 : s₂.addedTrace.Nodup := by
                  rw [htr2]
                  exact hA1
                have hB2 : ∀ id ∈ s₂.addedTrace, id ∈ seen ++ [dep_pkg.project_id] := by
                  intro id hm
                  rw [htr2, htr1] at hm
                  rcases List.mem_append.mp hm with hmm | hmm
                  · exact List.mem_append.mpr (Or.inl (hB id hmm))
                  · rw [List.mem_singleton] at hmm
                    subst hmm
                    rw [hpid]
                    simp
                have hrec := ih (seen ++ [dep_pkg.project_id]) s₂ hA2 hB2
                cases hr : installDeps gp fetch core rest
                    (seen ++ [dep_pkg.project_id]) s₂ with
                | ok pr =>
                  obtain ⟨seen', s'⟩ := pr
                  rw [hr] at hrec
                  obtain ⟨a, b, c, dd, e, f⟩ := hrec
                  refine ⟨a, b, ?_, ?_, ?_, ?_⟩
                  · intro id hid
                    exact c id (List.mem_append.mpr (Or.inl hid))
                  · intro id hid hnid
                    by_cases hid2 : id ∈ s₂.addedTrace
                    · rw [htr2, htr1] at hid2
                      rcases List.mem_append.mp hid2 with hmm | hmm
                      · exact absurd hmm hnid
                      · rw [List.mem_singleton] at hmm
                        subst hmm
                        exact h1
                    · have hnot := dd id hid hid2
                      intro hcontra
                      exact hnot (List.mem_append.mpr (Or.inl hcontra))
                  · intro id hid hnid
                    by_cases hid2 : id ∈ s₂.addedTrace
                    · rw [htr2, htr1] at hid2
                      rcases List.mem_append.mp hid2 with hmm | hmm
                      · exact absurd hmm hnid
                      · rw [List.mem_singleton] at hmm
                        subst hmm
                        exact ⟨d, List.mem_cons_self d rest, hd, h0⟩
                    · obtain ⟨d', hm, hp⟩ := e id hid hid2
                      exact ⟨d', List.mem_cons_of_mem d hm, hp⟩
                  · rw [f, hpl2, hpl1]
                | error hh =>
                  rw [hr] at hrec
                  obtain ⟨a, b, c⟩ := hrec
                  refine ⟨a, ?_, ?_⟩
                  · intro id hid hnid
                    by_cases hid2 : id ∈ s₂.addedTrace
                    · rw [htr2, htr1] at hid2
                      rcases List.mem_append.mp hid2 with hmm | hmm
                      · exact absurd hmm hnid
                      · rw [List.mem_singleton] at hmm
                        subst hmm
                        exact ⟨d, List.mem_cons_self d rest, hd, h0⟩
                    · obtain ⟨d', hm, hp⟩ := b id hid hid2
                      exact ⟨d', List.mem_cons_of_mem d hm, hp⟩
                  · rw [c, hpl2, hpl1]

/-- The install loop keeps the trace duplicate-free, never changes the
confirmation-plan observation, and only installs plan items or their
listed required dependencies (one level, non-empty ids). -/
theorem installLoop_inv (gp : String → Except String (Option Pkg))
    (fetch : String → Except String Unit) (core : String)
    (hgp : ∀ pid p, gp pid = .ok (some p) → p.project_id = pid) :
    ∀ (items : List Pkg) (seen : List String) (s : FSState),
    s.addedTrace.Nodup →
    (∀ id ∈ s.addedTrace, id ∈ seen) →
    (items.map (·.project_id)).Nodup →
    (∀ p ∈ items, p.project_id ∈ seen) →
    (∀ p ∈ items, p.project_id ∉ s.addedTrace) →
    (finalState (installLoop gp fetch core items seen s)).addedTrace.Nodup
    ∧ (finalState (installLoop gp fetch core items seen s)).confirmedPlan
        = s.confirmedPlan
    ∧ (∀ id, id ∈ (finalState (installLoop gp fetch core items seen s)).addedTrace →
        id ∉ s.addedTrace →
        id ∈ items.map (·.project_id)
        ∨ ∃ p ∈ items, ∃ d ∈ p.dependencies,
            d.dependency_type = "required" ∧ d.project_id = some id ∧ id ≠ "") := by
  intro items
  induction items with
  | nil =>
    intro seen s hA hB _ _ _
    exact ⟨hA, rfl, fun id h1 h2 => absurd h1 h2⟩
  | cons p rest ih =>
    intro seen s hA hB hC hD hE
    have hdeps := installDeps_inv gp fetch core hgp
      (p.dependencies.filter (fun d => d.dependency_type == "required")) seen s hA hB
    cases hdep : installDeps gp fetch core
        (p.dependencies.filter (fun d => d.dependency_type == "required")) seen s with
    | error h =>
      rw [hdep] at hdeps
      obtain ⟨a, b, c⟩ := hdeps
      have hred : installLoop gp fetch core (p :: rest) seen s = .error h := by
        simp only [installLoop, hdep]
      rw [hred]
      refine ⟨a, c, ?_⟩
      intro id h1 h2
      obtain ⟨d, hdm, hdp, hdne⟩ := b id h1 h2
      have hdm' := List.mem_filter.mp hdm
      right
      exact ⟨p, List.mem_cons_self p rest, d, hdm'.1, by simpa using hdm'.2, hdp, hdne⟩
    | ok pr =>
      obtain ⟨seen', s₁⟩ := pr
      rw [hdep] at hdeps
      obtain ⟨a1, b1, c1, d1, e1, f1⟩ := hdeps
      have hpmem : p.project_id ∈ seen := hD p (List.mem_cons_self p rest)
      have hpnot1 : p.project_id ∉ s₁.addedTrace := by
        intro hin
        by_cases h0 : p.project_id ∈ s.addedTrace
        · exact hE p (List.mem_cons_self p rest) h0
        · exact d1 _ hin h0 hpmem
      have htr2 : (add_package p s₁).addedTrace = s₁.addedTrace ++ [p.project_id] :=
        add_package_addedTrace p s₁
      have hA2 : (add_package p s₁).addedTrace.Nodup := by
        rw [htr2]
        exact nodup_concat a1 hpnot1
      have hpl2 : (add_package p s₁).confirmedPlan = s₁.confirmedPlan :=
        add_package_confirmedPlan p s₁
      cases hdl : download fetch core p (add_package p s₁) with
      | error e =>
        have hred : installLoop gp fetch core (p :: rest) seen s
            = .error (.exc e (add_package p s₁)) := by
          simp only [installLoop, hdep, hdl]
        rw [hred]
        refine ⟨hA2, ?_, ?_⟩
        · show (add_package p s₁).confirmedPlan = s.confirmedPlan
          rw [hpl2, f1]
        · intro id h1 h2
          have h1' : id ∈ (add_package p s₁).addedTrace := h1
          rw [htr2] at h1'
          rcases List.mem_append.mp h1' with hmm | hmm
          · obtain ⟨d, hdm, hdp, hdne⟩ := e1 id hmm h2
            have hdm' := List.mem_filter.mp hdm
            right
            exact ⟨p, List.mem_cons_self p rest, d, hdm'.1,
              by simpa using hdm'.2, hdp, hdne⟩
          · rw [List.mem_singleton] at hmm
            subst hmm
            left
            simp
      | ok s₂ =>
        obtain ⟨htr3, hpl3, _⟩ := download_ok_fields fetch core p _ s₂ hdl
        have hred : installLoop gp fetch core (p :: rest) seen s
            = installLoop gp fetch core rest seen' s₂ := by
          simp only [installLoop, hdep, hdl]
        rw [hred]
        have hA3 : s₂.addedTrace.Nodup := by
          rw [htr3]
          exact hA2
        have hB3 : ∀ id ∈ s₂.addedTrace, id ∈ seen' := by
          intro id hm
          rw [htr3, htr2] at hm
          rcases List.mem_append.mp hm with hmm | hmm
          · exact b1 id hmm
          · rw [List.mem_singleton] at hmm
            subst hmm
            exact c1 _ hpmem
        have hC3 : (rest.map (·.project_id)).Nodup := by
          simp only [List.map_cons, List.nodup_cons] at hC
          exact hC.2
        have hD3 : ∀ q ∈ rest, q.project_id ∈ seen' :=
          fun q hq => c1 _ (hD q (List.mem_cons_of_mem p hq))
        have hE3 : ∀ q ∈ rest, q.project_id ∉ s₂.addedTrace := by
          intro q hq hin
          rw [htr3, htr2] at hin
          rcases List.mem_append.mp hin with hmm | hmm
          · by_cases h0 : q.project_id ∈ s.addedTrace
            · exact hE q (List.mem_cons_of_mem p hq) h0
            · exact d1 _ hmm h0 (hD q (List.mem_cons_of_mem p hq))
          · rw [List.mem_singleton] at hmm
            simp only [List.map_cons, List.nodup_cons] at hC
            exact hC.1 (hmm ▸ List.mem_map_of_mem (·.project_id) hq)
        obtain ⟨ar, pr2, orr⟩ := ih seen' s₂ hA3 hB3 hC3 hD3 hE3
        refine ⟨ar, ?_, ?_⟩
        · rw [pr2, hpl3, hpl2, f1]
        · intro id h1 h2
          by_cases hid2 : id ∈ s₂.addedTrace
          · have hid2' := hid2
            rw [htr3, htr2] at hid2'
            rcases List.mem_append.mp hid2' with hmm | hmm
            · obtain ⟨d, hdm, hdp, hdne⟩ := e1 id hmm h2
              have hdm' := List.mem_filter.mp hdm
              right
              exact ⟨p, List.mem_cons_self p rest, d, hdm'.1,
                by simpa using hdm'.2, hdp, hdne⟩
            · rw [List.mem_singleton] at hmm
              subst hmm
              left
              simp
          · rcases orr id h1 hid2 with hl | ⟨q, hq, d, hdm, ht, hp, hne2⟩
            · left
              simp only [List.map_cons]
              exact List.mem_cons_of_mem _ hl
            · right
              exact ⟨q, List.mem_cons_of_mem p hq, d, hdm, ht, hp, hne2⟩

end LoopInvariants

section ClaimC6

/-- C6: one `cmd_install` call never processes (records and downloads)
the same `project_id` twice, even across primary items and dependencies,
because the single seen-set scoped to the call guards every addition.
Assumes the registry interface invariant that `list_releases(project_id)`
returns releases of that project. -/
theorem C6_no_duplicate_processing {V : Type} [LinearOrder V]
    (parse : String → Option V) (search : String → List String)
    (listVersions : String → Option (List Pkg)) (fetch : String → Except String Unit)
    (confirmAns : Bool) (env : Env) (queries : List String) (s : FSState)
    (hl : ∀ pid l, listVersions pid = some l → ∀ p ∈ l, p.project_id = pid)
    (h0 : s.addedTrace = []) :
    (finalState (cmd_install parse search listVersions fetch confirmAns env
      queries s)).addedTrace.Nodup := by
  have hgp : ∀ pid p,
      (fun pid => get_plugin parse listVersions pid env.version) pid = .ok (some p) →
      p.project_id = pid := by
    intro pid p h
    obtain ⟨l, hlv2, hmem⟩ := get_plugin_mem parse listVersions pid env.version p h
    exact hl pid l hlv2 p hmem
  unfold cmd_install
  cases hres : resolveLoop search
      (fun pid => get_plugin parse listVersions pid env.version) queries [] [] with
  | error e =>
    show s.addedTrace.Nodup
    rw [h0]
    exact List.nodup_nil
  | ok pr =>
    obtain ⟨seen, plan⟩ := pr
    cases plan with
    | nil =>
      show s.addedTrace.Nodup
      rw [h0]
      exact List.nodup_nil
    | cons p rest =>
      obtain ⟨hmono, hnd, hsub⟩ := resolveLoop_inv search _ queries [] [] seen
        (p :: rest) hres (by simp) (by simp)
      cases confirmAns with
      | false =>
        show s.addedTrace.Nodup
        rw [h0]
        exact List.nodup_nil
      | true =>
        have hinv := installLoop_inv
          (fun pid => get_plugin parse listVersions pid env.version) fetch env.core
          hgp (p :: rest) seen
          { s with confirmedPlan := some ((p :: rest).map (·.project_id)) }
          (by show s.addedTrace.Nodup; rw [h0]; exact List.nodup_nil)
          (by
            show ∀ id ∈ s.addedTrace, id ∈ seen
            rw [h0]
            intro id hid
            exact absurd hid (List.not_mem_nil id))
          hnd hsub
          (by
            show ∀ q ∈ p :: rest, q.project_id ∉ s.addedTrace
            rw [h0]
            intro q _ hin
            exact absurd hin (List.not_mem_nil q.project_id))
        exact hinv.1

/-- Closed instantiation of `C6_no_duplicate_processing` on a run that
installs one primary and its required dependency. -/
theorem C6_no_duplicate_processing_witness :
    (finalState (cmd_install parse1 (fun _ => ["P1"]) w6lv (fun _ => .ok ())
      true ⟨"1", "paper"⟩ ["alpha"] ⟨some [], [], [], none⟩)).addedTrace.Nodup :=
  C6_no_duplicate_processing parse1 (fun _ => ["P1"]) w6lv (fun _ => .ok ())
    true ⟨"1", "paper"⟩ ["alpha"] ⟨some [], [], [], none⟩
    (by
      intro pid l h p hp
      by_cases h1 : pid = "P1"
      · subst h1
        simp only [w6lv, if_pos rfl] at h
        injection h with e
        subst e
        rw [List.mem_singleton] at hp
        subst hp
        rfl
      · by_cases h2 : pid = "D1"
        · subst h2
          simp only [w6lv, if_neg h1, if_pos rfl] at h
          injection h with e
          subst e
          rw [List.mem_singleton] at hp
          subst hp
          rfl
        · simp only [w6lv, if_neg h1, if_neg h2] at h
          exact absurd h (by simp))
    rfl

end ClaimC6

section ClaimC8

/-- C8 counterexample: the claim says dependency expansion happens before
the plan is presented for confirmation so that dependency items are part
of the confirmed plan.  Running a primary P2 with required dependency D2
shows the confirmed plan holding only P2 while D2 is nevertheless
installed (expansion happens after confirmation, inside the install
loop). -/
theorem C8_dep_not_in_confirmed_plan :
    (finalState (cmd_install parse1 (fun _ => ["P2"]) c8lv (fun _ => .ok ())
        true ⟨"1", "paper"⟩ ["g"] ⟨some [], [], [], none⟩)).confirmedPlan
      = some ["P2"]
    ∧ "D2" ∈ (finalState (cmd_install parse1 (fun _ => ["P2"]) c8lv (fun _ => .ok ())
        true ⟨"1", "paper"⟩ ["g"] ⟨some [], [], [], none⟩)).addedTrace
    ∧ "D2" ∉ (["P2"] : List String) := by
  refine ⟨by decide, by decide, by decide⟩

/-- C8 amended: dependency expansion happens after confirmation, during
installation of each confirmed primary item, so the confirmed plan holds
exactly the primary items; nothing is installed when confirmation is
declined; expansion is exactly one level deep — every recorded id is a
primary's id or the id of a directly listed required dependency of a
primary, so a dependency's own dependencies are never installed — and a
dependency reference whose project_id is null or empty is skipped. -/
theorem C8_one_level_after_confirmation {V : Type} [LinearOrder V]
    (parse : String → Option V) (search : String → List String)
    (listVersions : String → Option (List Pkg)) (fetch : String → Except String Unit)
    (confirmAns : Bool) (env : Env) (queries : List String) (s : FSState)
    (seen : List String) (plan : List Pkg)
    (hl : ∀ pid l, listVersions pid = some l → ∀ p ∈ l, p.project_id = pid)
    (h0 : s.addedTrace = [])
    (hres : resolveLoop search
      (fun pid => get_plugin parse listVersions pid env.version) queries [] []
      = .ok (seen, plan))
    (hne : plan ≠ []) :
    (finalState (cmd_install parse search listVersions fetch confirmAns env
        queries s)).confirmedPlan = some (plan.map (·.project_id))
    ∧ (confirmAns = false →
        (finalState (cmd_install parse search listVersions fetch confirmAns env
          queries s)).addedTrace = [])
    ∧ (∀ id, id ∈ (finalState (cmd_install parse search listVersions fetch
          confirmAns env queries s)).addedTrace →
        id ∈ plan.map (·.project_id)
        ∨ ∃ p ∈ plan, ∃ d ∈ p.dependencies,
            d.dependency_type = "required" ∧ d.project_id = some id ∧ id ≠ "") := by
  have hgp : ∀ pid p,
      (fun pid => get_plugin parse listVersions pid env.version) pid = .ok (some p) →
      p.project_id = pid := by
    intro pid p h
    obtain ⟨l, hlv2, hmem⟩ := get_plugin_mem parse listVersions pid env.version p h
    exact hl pid l hlv2 p hmem
  unfold cmd_install
  rw [hres]
  cases plan with
  | nil => exact absurd rfl hne
  | cons p rest =>
    obtain ⟨hmono, hnd, hsub⟩ := resolveLoop_inv search _ queries [] [] seen
      (p :: rest) hres (by simp) (by simp)
    cases confirmAns with
    | false =>
      refine ⟨rfl, fun _ => h0, ?_⟩
      intro id hid
      have hid' : id ∈ s.addedTrace := hid
      rw [h0] at hid'
      exact absurd hid' (List.not_mem_nil id)
    | true =>
      have hinv := installLoop_inv
        (fun pid => get_plugin parse listVersions pid env.version) fetch env.core
        hgp (p :: rest) seen
        { s with confirmedPlan := some ((p :: rest).map (·.project_id)) }
        (by show s.addedTrace.Nodup; rw [h0]; exact List.nodup_nil)
        (by
          show ∀ id ∈ s.addedTrace, id ∈ seen
          rw [h0]
          intro id hid
          exact absurd hid (List.not_mem_nil id))
        hnd hsub
        (by
          show ∀ q ∈ p :: rest, q.project_id ∉ s.addedTrace
          rw [h0]
          intro q _ hin
          exact absurd hin (List.not_mem_nil q.project_id))
      refine ⟨?_, ?_, ?_⟩
      · exact hinv.2.1
      · intro hfalse
        exact absurd hfalse (by simp)
      · intro id hid
        exact hinv.2.2 id hid (by
          show id ∉ s.addedTrace
          rw [h0]
          exact List.not_mem_nil id)

/-- Closed instantiation of `C8_one_level_after_confirmation` on the P2/D2
run of the counterexample. -/
theorem C8_one_level_witness :
    (finalState (cmd_install parse1 (fun _ => ["P2"]) c8lv (fun _ => .ok ())
        true ⟨"1", "paper"⟩ ["g"] ⟨some [], [], [], none⟩)).confirmedPlan
      = some ([c8p].map (·.project_id))
    ∧ ((true : Bool) = false →
        (finalState (cmd_install parse1 (fun _ => ["P2"]) c8lv (fun _ => .ok ())
          true ⟨"1", "paper"⟩ ["g"] ⟨some [], [], [], none⟩)).addedTrace = [])
    ∧ (∀ id, id ∈ (finalState (cmd_install parse1 (fun _ => ["P2"]) c8lv
          (fun _ => .ok ()) true ⟨"1", "paper"⟩ ["g"]
          ⟨some [], [], [], none⟩)).addedTrace →
        id ∈ [c8p].map (·.project_id)
        ∨ ∃ p ∈ [c8p], ∃ d ∈ p.dependencies,
            d.dependency_type = "required" ∧ d.project_id = some id ∧ id ≠ "") :=
  C8_one_level_after_confirmation parse1 (fun _ => ["P2"]) c8lv (fun _ => .ok ())
    true ⟨"1", "paper"⟩ ["g"] ⟨some [], [], [], none⟩ ["P2"] [c8p]
    (by
      intro pid l h p hp
      by_cases h1 : pid = "P2"
      · subst h1
        simp only [c8lv, if_pos rfl] at h
        injection h with e
        subst e
        rw [List.mem_singleton] at hp
        subst hp
        rfl
      · by_cases h2 : pid = "D2"
        · subst h2
          simp only [c8lv, if_neg h1, if_pos rfl] at h
          injection h with e
          subst e
          rw [List.mem_singleton] at hp
          subst hp
          rfl
        · simp only [c8lv, if_neg h1, if_neg h2] at h
          exact absurd h (by simp))
    rfl rfl (by decide)

end ClaimC8

end Pacmine
